import Mathlib

/-
Verification of the grid-combat resolver in `src/puzzle15/mod.rs` (Advent of
Code 2018, day 15).  The Rust source is embedded shallowly: the interior
mutability (`RefCell<Unit>`) becomes explicit state passing over a `List Unit`
addressed by index, the `HashMap`/`HashSet` collections become association
lists / membership tests (only lookup and membership are ever used on them),
and the external `pathfinding` crate's Dijkstra call with unit edge weights
becomes a fuelled breadth-first search computing the same shortest distance.
Machine integers (`u16` coordinates, `i16` hit points, `u32` sums) are
embedded as `Nat`/`Int`; none of the arithmetic in the program approaches the
overflow range.
-/

set_option maxRecDepth 100000

namespace Advent15

/-- Grid coordinate, row `top` then column `left`, as in the source struct
`Pt { top: u16, left: u16 }`.  The derived Rust `Ord` compares `top` first and
then `left`, i.e. reading order. -/
structure Pt where
  top : Nat
  left : Nat
deriving DecidableEq, Repr

/-- Boolean equality of points (the derived `PartialEq` on `Pt`). -/
def pbeq (a b : Pt) : Bool := a.top == b.top && a.left == b.left

/-- Membership of a point in a list of points; embeds both
`HashSet<Pt>::contains` and `Vec<Pt>::contains` of the source. -/
def elemP (p : Pt) : List Pt → Bool
  | [] => false
  | q :: qs => pbeq q p || elemP p qs

/-- Remove duplicate points (used to keep the breadth-first frontier a set,
as Dijkstra's cost map does in the source's `pathfinding` crate). -/
def dedupP : List Pt → List Pt
  | [] => []
  | p :: ps => if elemP p ps then dedupP ps else p :: dedupP ps

/-- Reading-order comparison of points, the derived `Ord` on `Pt`. -/
def Pt.cmp (a b : Pt) : Ordering :=
  if a.top < b.top then Ordering.lt
  else if b.top < a.top then Ordering.gt
  else if a.left < b.left then Ordering.lt
  else if b.left < a.left then Ordering.gt
  else Ordering.eq

/-- Rust `Pt::pt_up`: the cell above, unless already on the top row. -/
def Pt.pt_up (p : Pt) : Option Pt :=
  if 0 < p.top then some ⟨p.top - 1, p.left⟩ else none

/-- Rust `Pt::pt_left`: the cell to the left, unless already in the first column. -/
def Pt.pt_left (p : Pt) : Option Pt :=
  if 0 < p.left then some ⟨p.top, p.left - 1⟩ else none

/-- Rust `Pt::pt_down`. -/
def Pt.pt_down (p : Pt) : Pt := ⟨p.top + 1, p.left⟩

/-- Rust `Pt::pt_right`. -/
def Pt.pt_right (p : Pt) : Pt := ⟨p.top, p.left + 1⟩

/-- Rust `Pt::adjacent`: orthogonal neighbours in the source's chaining order
up, left, down, right. -/
def Pt.adjacent (p : Pt) : List Pt :=
  p.pt_up.toList ++ p.pt_left.toList ++ [p.pt_down, p.pt_right]

/-- Terrain of one cell (`Loc`). -/
inductive Loc
  | Wall
  | Space
deriving DecidableEq, Repr

/-- Faction of a combatant (`Kind`); the source calls goblins `Guard`. -/
inductive Kind
  | Guard
  | Elf
deriving DecidableEq, Repr

/-- A combatant (`Unit`): position, faction and hit points (an `i16` in the
source, embedded as `Int` since damage can push it below zero). -/
structure Unit where
  pos : Pt
  kind : Kind
  hit_pts : Int
deriving DecidableEq, Repr

instance : Inhabited Unit := ⟨⟨⟨0, 0⟩, Kind.Guard, 0⟩⟩

/-- Rust `Unit::new`: hit points start at 200. -/
def Unit.new (pos : Pt) (kind : Kind) : Unit := ⟨pos, kind, 200⟩

/-- A candidate movement path.  The source's `Path` wraps the full list of
cells returned by Dijkstra, but its manual `PartialOrd` (compare length, then
destination = last cell, then origin = first cell) and every use in
`Board::move_unit` (`path.origin()` as the step to take) depend only on the
three projections stored here, so the embedding keeps exactly those: `len` is
the number of cells on the path (distance + 1), `dest` its last cell, `origin`
its first cell. -/
structure Path where
  len : Nat
  dest : Pt
  origin : Pt
deriving DecidableEq, Repr

/-- Rust `Path::partial_cmp`: shortest length first, then destination in reading
order, then origin (first step) in reading order. -/
def Path.cmp (p q : Path) : Ordering :=
  (if p.len < q.len then Ordering.lt
   else if q.len < p.len then Ordering.gt
   else Ordering.eq).then
    ((Pt.cmp p.dest q.dest).then (Pt.cmp p.origin q.origin))

/-- Association-list lookup embedding `HashMap<Pt, Loc>::get`. -/
def lookupLoc : List (Pt × Loc) → Pt → Option Loc
  | [], _ => none
  | (q, l) :: rest, p => if pbeq q p then some l else lookupLoc rest p

/-- Association-list lookup embedding
`HashMap<Pt, Vec<Pt>>::get(..).cloned().unwrap_or(Vec::new())`. -/
def lookupAdj : List (Pt × List Pt) → Pt → List Pt
  | [], _ => []
  | (q, v) :: rest, p => if pbeq q p then v else lookupAdj rest p

/-- The static terrain (`Map`): every cell of the grid, and the table of open
orthogonal neighbours that `Map::new` precomputes for the cells that have
any. -/
structure Map where
  locs : List (Pt × Loc)
  adjacent_pts : List (Pt × List Pt)
deriving DecidableEq, Repr

/-- Rust `Map::new`: for each key `pt` of `locs`, keep
`pt.adjacent().retain(|o| locs.get(o) == Some(Space))`, storing the result
only when it is non-empty.  (The Rust iterates the keys in `HashMap` order;
the table is built here in `locs` order, which defines the same finite map,
and it is only ever read through `lookupAdj`.) -/
def Map.new (locs : List (Pt × Loc)) : Map :=
  let adjacent_pts :=
    (locs.map (fun e =>
      (e.1, (Pt.adjacent e.1).filter
        (fun q => lookupLoc locs q == some Loc.Space)))).filter
      (fun e => !e.2.isEmpty)
  ⟨locs, adjacent_pts⟩

/-- Rust `Map::adjacent`. -/
def Map.adjacent (m : Map) (pos : Pt) : List Pt :=
  lookupAdj m.adjacent_pts pos

/-- Fuelled breadth-first search returning the number of edges on a shortest
path from the `frontier` level to `tgt`, avoiding `visited`.  This embeds the
`pathfinding` crate's Dijkstra with all edge weights 1 as called by
`Map::shortest_path`. -/
def bfs (succ : Pt → List Pt) (tgt : Pt) : Nat → List Pt → List Pt → Option Nat
  | 0, _, _ => none
  | fuel + 1, frontier, visited =>
    if frontier.isEmpty then none
    else if elemP tgt frontier then some 0
    else
      let visited' := visited ++ frontier
      let next := dedupP ((frontier.flatMap succ).filter (fun q => !(elemP q visited')))
      (bfs succ tgt fuel next visited').map (· + 1)

/-- Rust `Map::shortest_path`: Dijkstra from `src` to `tgt` over open cells with
the cells in `excluding` removed from the successor sets; the returned path
has `cost + 1` cells, starts at `src` and ends at `tgt`.  The fuel
`m.locs.length + 1` dominates the number of breadth-first levels, every
explored cell being a key of `locs`. -/
def Map.shortest_path (m : Map) (src : Pt) (tgt : Pt) (excluding : List Pt) :
    Option Path :=
  (bfs (fun p => (m.adjacent p).filter (fun q => !(elemP q excluding)))
      tgt (m.locs.length + 1) [src] []).map
    (fun d => ⟨d + 1, tgt, src⟩)

/-- Rust `AttackOutcome`. -/
inductive AttackOutcome
  | NotInRange
  | Attacked (u : Unit)
deriving DecidableEq, Repr

/-- Rust `MoveOutcome`. -/
inductive MoveOutcome
  | Unreachable
  | Moved (frm : Pt) (dst : Pt)
deriving DecidableEq, Repr

/-- Rust `TurnOutcome`. -/
inductive TurnOutcome
  | NoTargets
  | Unreachable
  | Dead (u : Unit)
  | Alive (u : Unit) (mv : Option MoveOutcome) (atk : AttackOutcome)
deriving DecidableEq, Repr

/-- Rust `RoundOutcome`. -/
inductive RoundOutcome
  | Partial (ts : List TurnOutcome)
  | Full (ts : List TurnOutcome)
deriving DecidableEq, Repr

/-- Rust `Outcome` of a whole battle. -/
inductive Outcome
  | ElfDied
  | Solved (rounds : Nat) (sum : Nat)
deriving DecidableEq, Repr

/-- First minimal element of a list under an `Ordering`-valued comparator.
This is what both selection sites of the source compute: `move_unit` collects
candidates into a `BinaryHeap<Reverse<Path>>` and peeks the minimum (ties
under `Path::partial_cmp` are literally equal here, since `Path` stores
exactly the compared projections), and `attack` stably sorts and takes the
first element. -/
def selectBy (cmp : α → α → Ordering) : List α → Option α
  | [] => none
  | x :: xs => some (xs.foldl (fun best y => if cmp y best = Ordering.lt then y else best) x)

/-- The battle state (`Board`): terrain, all units (dead ones included; the
source never removes units from `all_units`) and the per-faction attack-power
overrides. -/
structure Board where
  map : Map
  all_units : List Unit
  attack_pwr : List (Kind × Nat)
deriving DecidableEq, Repr

/-- Association-list lookup embedding `HashMap<Kind, u16>::get`. -/
def lookupPwr : List (Kind × Nat) → Kind → Option Nat
  | [], _ => none
  | (k, n) :: rest, k' => if k = k' then some n else lookupPwr rest k'

/-- The unit stored at index `i`; indices model the `RefCell` identities of
the source, which stay stable within a round. -/
def Board.unit (b : Board) (i : Nat) : Unit := b.all_units.getD i default

/-- Rust `Board::current_unit_positions`: the positions of all units with positive
hit points (a `HashSet` in the source, used only through membership). -/
def Board.current_unit_positions (b : Board) : List Pt :=
  (b.all_units.filter (fun u => decide (0 < u.hit_pts))).map (fun u => u.pos)

/-- Rust `Board::in_range`: open neighbours of `pos` not occupied by a living
unit. -/
def Board.in_range (b : Board) (pos : Pt) : List Pt :=
  let current_pos := b.current_unit_positions
  (b.map.adjacent pos).filter (fun pt => !(elemP pt current_pos))

/-- The comparator of `Board::attack`'s sort: hit points first, then position
in reading order. -/
def unitCmp (u v : Unit) : Ordering :=
  (if u.hit_pts < v.hit_pts then Ordering.lt
   else if v.hit_pts < u.hit_pts then Ordering.gt
   else Ordering.eq).then (Pt.cmp u.pos v.pos)

/-- The `in_range` filter of `Board::attack`: the targets whose open
neighbourhood contains the attacker's position. -/
def Board.adjTargets (b : Board) (i : Nat) (targets : List Nat) : List Nat :=
  targets.filter (fun j => elemP (b.unit i).pos (b.map.adjacent (b.unit j).pos))

/-- Rust `Board::attack`: among the `targets` (indices into `all_units`) whose open
neighbourhood contains the attacker's position, pick the first minimum by
(hit points, position) and subtract the attacker's attack power (default 3)
from its hit points. -/
def Board.attack (b : Board) (i : Nat) (targets : List Nat) :
    Board × AttackOutcome :=
  match selectBy (fun j k => unitCmp (b.unit j) (b.unit k)) (b.adjTargets i targets) with
  | none => (b, AttackOutcome.NotInRange)
  | some j =>
      let pwr := (lookupPwr b.attack_pwr (b.unit i).kind).getD 3
      let t := b.unit j
      let t' := { t with hit_pts := t.hit_pts - (pwr : Int) }
      ({ b with all_units := b.all_units.set j t' }, AttackOutcome.Attacked t')

/-- The candidate paths of `Board::move_unit`: for every open unoccupied
neighbour `origin` of the moving unit (candidate first step) and every
in-range cell `c` (open unoccupied neighbour of a target), the shortest path
from `origin` to `c` avoiding the positions of living units. -/
def Board.moveCandidates (b : Board) (i : Nat) (targets : List Nat) : List Path :=
  let in_range_cells := targets.flatMap (fun j => b.in_range (b.unit j).pos)
  let first_steps := b.in_range (b.unit i).pos
  first_steps.flatMap (fun origin =>
    in_range_cells.filterMap (fun c =>
      b.map.shortest_path origin c b.current_unit_positions))

/-- Rust `Board::move_unit`: peek the minimal candidate path under
`Path::partial_cmp` and step onto its origin (first step); if there is no
candidate the unit is `Unreachable` and stays put. -/
def Board.move_unit (b : Board) (i : Nat) (targets : List Nat) :
    Board × MoveOutcome :=
  match selectBy Path.cmp (b.moveCandidates i targets) with
  | none => (b, MoveOutcome.Unreachable)
  | some p =>
      let u := b.unit i
      ({ b with all_units := b.all_units.set i { u with pos := p.origin } },
        MoveOutcome.Moved u.pos p.origin)

/-- The `potential_targets` of `Board::turn`: indices (in storage order) of the
units with positive hit points and the opposite faction. -/
def Board.potentialTargets (b : Board) (i : Nat) : List Nat :=
  (List.range b.all_units.length).filter
    (fun j => decide (0 < (b.unit j).hit_pts) && decide ((b.unit j).kind ≠ (b.unit i).kind))

/-- Rust `Board::turn`: dead units do nothing; a unit with no living enemies
reports `NoTargets`; otherwise attack if already in range, else move and (only
when a move was found) attack again from the new position. -/
def Board.turn (b : Board) (i : Nat) : Board × TurnOutcome :=
  let cloned := b.unit i
  if cloned.hit_pts ≤ 0 then (b, TurnOutcome.Dead cloned)
  else
    let pts := b.potentialTargets i
    if pts.isEmpty then (b, TurnOutcome.NoTargets)
    else
      match b.attack i pts with
      | (b1, AttackOutcome.NotInRange) =>
          (match b1.move_unit i pts with
           | (b2, MoveOutcome.Unreachable) => (b2, TurnOutcome.Unreachable)
           | (b2, MoveOutcome.Moved frm dst) =>
               (match b2.attack i pts with
                | (b3, atk) =>
                    (b3, TurnOutcome.Alive cloned (some (MoveOutcome.Moved frm dst)) atk)))
      | (b1, atk) => (b1, TurnOutcome.Alive cloned none atk)

/-- The loop body of `Board::round`: run the turns of units `i, i+1, ...`
(`n` of them remain), stopping the round as `Partial` the instant a turn
reports `NoTargets`. -/
def Board.roundGo : Board → Nat → Nat → List TurnOutcome → Board × RoundOutcome
  | b, _, 0, acc => (b, RoundOutcome.Full acc.reverse)
  | b, i, n + 1, acc =>
    match b.turn i with
    | (b1, TurnOutcome.NoTargets) => (b1, RoundOutcome.Partial acc.reverse)
    | (b1, out) => Board.roundGo b1 (i + 1) n (out :: acc)

/-- The round-start sort of `Board::round`: stable sort of the unit storage by
position in reading order (`sort_by_key(|x| x.pos)`). -/
def sortUnits (l : List Unit) : List Unit :=
  List.insertionSort (fun u v => Pt.cmp u.pos v.pos ≠ Ordering.gt) l

/-- Rust `Board::round`. -/
def Board.round (b : Board) : Board × RoundOutcome :=
  let sorted := sortUnits b.all_units
  Board.roundGo { b with all_units := sorted } 0 sorted.length []

/-- The hit-point sum over living units computed at the end of both solvers. -/
def livingHpSum (b : Board) : Nat :=
  ((b.all_units.filter (fun u => decide (0 < u.hit_pts))).map
    (fun u => u.hit_pts.toNat)).sum

/-- The loop of `Board::solve_part1`, fuelled: count full rounds, and stop at
the first partial round with the sum of the living units' hit points.  The
final mutated board (`self` in the source) is returned alongside. -/
def Board.solveP1Go : Board → Nat → Nat → Option (Board × Nat × Nat)
  | _, _, 0 => none
  | b, rounds, fuel + 1 =>
    match b.round with
    | (b1, RoundOutcome.Full _) => Board.solveP1Go b1 (rounds + 1) fuel
    | (b1, RoundOutcome.Partial _) => some (b1, rounds, livingHpSum b1)

/-- Rust `Board::solve_part1` (fuelled; `none` means the battle did not finish
within `fuel` rounds). -/
def Board.solve_part1 (b : Board) (fuel : Nat) : Option (Board × Nat × Nat) :=
  Board.solveP1Go b 0 fuel

/-- The elf-death check of `Board::solve_part2`: some stored unit is an elf
with hit points at or below zero. -/
def Board.anyDeadElf (b : Board) : Bool :=
  b.all_units.any (fun u => decide (u.hit_pts ≤ 0) && decide (u.kind = Kind.Elf))

/-- The loop of `Board::solve_part2`, fuelled: after every round, first check
for a dead elf (which aborts the whole battle), then stop at a partial round
with the round count and living hit-point sum. -/
def Board.solveP2Go : Board → Nat → Nat → Option (Board × Outcome)
  | _, _, 0 => none
  | b, rounds, fuel + 1 =>
    match b.round with
    | (b1, out) =>
      if b1.anyDeadElf then some (b1, Outcome.ElfDied)
      else
        match out with
        | RoundOutcome.Partial _ => some (b1, Outcome.Solved rounds (livingHpSum b1))
        | RoundOutcome.Full _ => Board.solveP2Go b1 (rounds + 1) fuel

/-- Rust `Board::solve_part2` (fuelled). -/
def Board.solve_part2 (b : Board) (fuel : Nat) : Option (Board × Outcome) :=
  Board.solveP2Go b 0 fuel

/-- Rust `Puzzle15::part1`: the product of full rounds and remaining hit points. -/
def part1 (b : Board) (fuel : Nat) : Option Nat :=
  (b.solve_part1 fuel).map (fun r => r.2.1 * r.2.2)

/-- A fresh clone of the parsed board with the elves' attack power overridden,
as built at the top of each iteration of `Puzzle15::part2` (the parsed board's
`attack_pwr` map is empty). -/
def withElfPwr (b : Board) (pwr : Nat) : Board :=
  { b with attack_pwr := [(Kind.Elf, pwr)] }

/-- The search loop of `Puzzle15::part2`, fuelled on the number of candidate
powers tried.  State: the largest power assumed failing (`maxFailed`, started
at 3 without being tested), the candidate `pwr`, and the least power seen to
succeed (`minSuccess`).  A battle in which an elf dies marks the candidate as
failing; the loop returns only from a successful battle whose power is exactly
`maxFailed + 1`.  Beyond the source's returned product, the result also
carries the winning power and the round/sum pair, which are the loop's local
state at the return point. -/
def part2Go (base : Board) (battleFuel : Nat) :
    Nat → Nat → Nat → Option Nat → Option (Nat × Nat × Nat)
  | 0, _, _, _ => none
  | fuel + 1, maxFailed, pwr, minSuccess =>
    match (withElfPwr base pwr).solve_part2 battleFuel with
    | none => none
    | some (_, Outcome.ElfDied) =>
        (match minSuccess with
         | none => part2Go base battleFuel fuel pwr (pwr * 2) none
         | some p => part2Go base battleFuel fuel pwr (p - (p - pwr) / 2) (some p))
    | some (_, Outcome.Solved rounds sum) =>
        if pwr = maxFailed + 1 then some (pwr, rounds, sum)
        else part2Go base battleFuel fuel maxFailed (pwr - (pwr - maxFailed) / 2) (some pwr)

/-- Rust `Puzzle15::part2`: search from power 4 with assumed failing power 3. -/
def part2 (base : Board) (battleFuel searchFuel : Nat) : Option Nat :=
  (part2Go base battleFuel searchFuel 3 4 none).map (fun r => r.2.1 * r.2.2)

/-- One character of the input grid (`parse`): `none` embeds the source's
panic on an unexpected character. -/
def parseCell : Char → Option (Option Kind × Loc)
  | '#' => some (none, Loc.Wall)
  | '.' => some (none, Loc.Space)
  | 'G' => some (some Kind.Guard, Loc.Space)
  | 'E' => some (some Kind.Elf, Loc.Space)
  | _ => none

/-- Parse one input line at row `top`, columns from `left`. -/
def parseRow (top : Nat) : Nat → List Char → Option (List (Pt × Loc) × List Unit)
  | _, [] => some ([], [])
  | left, c :: cs =>
    match parseCell c, parseRow top (left + 1) cs with
    | some (k, loc), some (ls, us) =>
        some ((⟨top, left⟩, loc) :: ls,
          (match k with
           | some kd => [Unit.new ⟨top, left⟩ kd]
           | none => []) ++ us)
    | _, _ => none

/-- Parse the input lines from row `top` down. -/
def parseRows : Nat → List (List Char) → Option (List (Pt × Loc) × List Unit)
  | _, [] => some ([], [])
  | top, row :: rows =>
    match parseRow top 0 row, parseRows (top + 1) rows with
    | some (ls, us), some (ls2, us2) => some (ls ++ ls2, us ++ us2)
    | _, _ => none

/-- Rust `parse`: build the terrain (through `Map::new`) and the unit list from the
character grid; the attack-power overrides start empty. -/
def parse (input : List (List Char)) : Option Board :=
  (parseRows 0 input).map
    (fun r => { map := Map.new r.1, all_units := r.2, attack_pwr := [] })

/-! Statement-side notions used by the theorems below. -/

/-- Strict reading order on cells: earlier row, or same row and earlier
column. -/
def Pt.rdLt (a b : Pt) : Prop :=
  a.top < b.top ∨ (a.top = b.top ∧ a.left < b.left)

/-- The path preorder stated by the movement rule: shorter first, then
destination in reading order, then origin (first step) in reading order. -/
def pathLe (p q : Path) : Prop :=
  p.len < q.len ∨
    (p.len = q.len ∧
      (Pt.rdLt p.dest q.dest ∨
        (p.dest = q.dest ∧ (Pt.rdLt p.origin q.origin ∨ p.origin = q.origin))))

/-- The target preorder stated by the attack rule: fewest hit points first,
then position in reading order. -/
def hpPosLe (u v : Unit) : Prop :=
  u.hit_pts < v.hit_pts ∨
    (u.hit_pts = v.hit_pts ∧ (Pt.rdLt u.pos v.pos ∨ u.pos = v.pos))

/-- The claimed invariant: among the stored units, no two living ones share a
position. -/
def okPos (l : List Unit) : Prop :=
  l.Pairwise (fun u v => 0 < u.hit_pts → 0 < v.hit_pts → u.pos ≠ v.pos)

/-- The battle state after `n` rounds have executed. -/
def roundIter (b : Board) : Nat → Board
  | 0 => b
  | n + 1 => ((roundIter b n).round).1

/-- Whether a round outcome is the battle-ending `Partial` variant. -/
def RoundOutcome.isPartial : RoundOutcome → Bool
  | RoundOutcome.Partial _ => true
  | RoundOutcome.Full _ => false

/-! Concrete boards used as witnesses and counterexamples. -/

/-- Fallback board for `Option.getD`; never actually reached, since every
concrete grid below parses. -/
def dummyBoard : Board := ⟨⟨[], []⟩, [], []⟩

/-- The 7x7 example grid of the puzzle statement (`EXAMPLE` in the source's
tests): two goblin clusters and two elves. -/
def exGrid : List (List Char) :=
  [[ '#', '#', '#', '#', '#', '#', '#'],
   [ '#', '.', 'G', '.', '.', '.', '#'],
   [ '#', '.', '.', '.', 'E', 'G', '#'],
   [ '#', '.', '#', '.', '#', 'G', '#'],
   [ '#', '.', '.', 'G', '#', 'E', '#'],
   [ '#', '.', '.', '.', '.', '.', '#'],
   [ '#', '#', '#', '#', '#', '#', '#']]

/-- The parsed example board. -/
def exBoard : Board := (parse exGrid).getD dummyBoard

/-- A board with a single elf and no enemies: the very first turn discovers
no targets. -/
def soloGrid : List (List Char) :=
  [[ '#', '#', '#'],
   [ '#', 'E', '#'],
   [ '#', '#', '#']]

/-- The parsed single-elf board. -/
def soloBoard : Board := (parse soloGrid).getD dummyBoard

/-- A corridor duel, goblin first in reading order, permanently adjacent:
the whole battle is attacks, no movement. -/
def tinyGrid : List (List Char) :=
  [[ '#', '#', '#', '#'],
   [ '#', 'G', 'E', '#'],
   [ '#', '#', '#', '#']]

/-- The parsed corridor-duel board. -/
def tinyBoard : Board := (parse tinyGrid).getD dummyBoard

/-- An elf and a goblin separated by a wall: the elf has living enemies but
no first step and no reachable in-range cell. -/
def boxGrid : List (List Char) :=
  [[ '#', '#', '#', '#', '#'],
   [ '#', 'E', '#', 'G', '#'],
   [ '#', '#', '#', '#', '#']]

/-- The parsed boxed-in board. -/
def boxBoard : Board := (parse boxGrid).getD dummyBoard

/-- An elf one open cell away from a goblin: the elf's turn moves one step
and then attacks. -/
def duelGrid : List (List Char) :=
  [[ '#', '#', '#', '#', '#'],
   [ '#', 'E', '.', 'G', '#'],
   [ '#', '#', '#', '#', '#']]

/-- The parsed one-gap duel board. -/
def duelBoard : Board := (parse duelGrid).getD dummyBoard

/-- A corridor with a goblin, an elf and another goblin, each one cell
apart. -/
def deadGrid : List (List Char) :=
  [[ '#', '#', '#', '#', '#', '#', '#'],
   [ '#', 'G', '.', 'E', '.', 'G', '#'],
   [ '#', '#', '#', '#', '#', '#', '#']]

/-- The corridor board with the first goblin's hit points set to zero: a dead
unit still in storage. -/
def deadBoard : Board :=
  let b := (parse deadGrid).getD dummyBoard
  { b with all_units := b.all_units.set 0 { b.unit 0 with hit_pts := 0 } }

/-! Bridging lemmas between the executable primitives and propositions. -/

theorem pbeq_iff {a b : Pt} : pbeq a b = true ↔ a = b := by
  cases a; cases b
  simp [pbeq, Pt.mk.injEq]

theorem elemP_iff {p : Pt} {l : List Pt} : elemP p l = true ↔ p ∈ l := by
  induction l with
  | nil => simp [elemP]
  | cons q qs ih =>
    simp only [elemP, Bool.or_eq_true, pbeq_iff, ih, List.mem_cons]
    constructor
    · rintro (rfl | h)
      · exact Or.inl rfl
      · exact Or.inr h
    · rintro (rfl | h)
      · exact Or.inl rfl
      · exact Or.inr h

theorem mem_current_unit_positions {b : Board} {p : Pt} :
    p ∈ b.current_unit_positions ↔
      ∃ u, u ∈ b.all_units ∧ 0 < u.hit_pts ∧ u.pos = p := by
  simp only [Board.current_unit_positions, List.mem_map, List.mem_filter,
    decide_eq_true_eq]
  constructor
  · rintro ⟨u, ⟨hu, hhp⟩, hpos⟩
    exact ⟨u, hu, hhp, hpos⟩
  · rintro ⟨u, hu, hhp, hpos⟩
    exact ⟨u, ⟨hu, hhp⟩, hpos⟩

theorem then_ne_gt {x y : Ordering} :
    x.then y ≠ Ordering.gt ↔
      x = Ordering.lt ∨ (x = Ordering.eq ∧ y ≠ Ordering.gt) := by
  cases x <;> simp [Ordering.then]

theorem then_eq_lt {x y : Ordering} :
    x.then y = Ordering.lt ↔
      x = Ordering.lt ∨ (x = Ordering.eq ∧ y = Ordering.lt) := by
  cases x <;> simp [Ordering.then]

theorem natCmpIf_lt {m n : Nat} :
    (if m < n then Ordering.lt else if n < m then Ordering.gt else Ordering.eq) =
        Ordering.lt ↔ m < n := by
  split_ifs <;> simp <;> omega

theorem natCmpIf_eq {m n : Nat} :
    (if m < n then Ordering.lt else if n < m then Ordering.gt else Ordering.eq) =
        Ordering.eq ↔ m = n := by
  split_ifs <;> simp <;> omega

theorem intCmpIf_lt {m n : Int} :
    (if m < n then Ordering.lt else if n < m then Ordering.gt else Ordering.eq) =
        Ordering.lt ↔ m < n := by
  split_ifs <;> simp <;> omega

theorem intCmpIf_eq {m n : Int} :
    (if m < n then Ordering.lt else if n < m then Ordering.gt else Ordering.eq) =
        Ordering.eq ↔ m = n := by
  split_ifs <;> simp <;> omega

theorem ptCmp_eq_lt {a b : Pt} : Pt.cmp a b = Ordering.lt ↔ Pt.rdLt a b := by
  cases a; cases b
  simp only [Pt.cmp, Pt.rdLt]
  split_ifs <;> simp <;> omega

theorem ptCmp_eq_eq {a b : Pt} : Pt.cmp a b = Ordering.eq ↔ a = b := by
  cases a; cases b
  simp only [Pt.cmp, Pt.mk.injEq]
  split_ifs <;> simp <;> omega

theorem ptCmp_ne_gt {a b : Pt} :
    Pt.cmp a b ≠ Ordering.gt ↔ (Pt.rdLt a b ∨ a = b) := by
  cases a; cases b
  simp only [Pt.cmp, Pt.rdLt, Pt.mk.injEq]
  split_ifs <;> simp <;> omega

theorem pathCmp_ne_gt {p q : Path} : Path.cmp p q ≠ Ordering.gt ↔ pathLe p q := by
  simp only [Path.cmp, pathLe, then_ne_gt, natCmpIf_lt, natCmpIf_eq,
    ptCmp_eq_lt, ptCmp_eq_eq, ptCmp_ne_gt]

theorem pathCmp_eq_lt {p q : Path} :
    Path.cmp p q = Ordering.lt ↔
      (p.len < q.len ∨ (p.len = q.len ∧ (Pt.rdLt p.dest q.dest ∨
        (p.dest = q.dest ∧ Pt.rdLt p.origin q.origin)))) := by
  simp only [Path.cmp, then_eq_lt, natCmpIf_lt, natCmpIf_eq,
    ptCmp_eq_lt, ptCmp_eq_eq]

theorem unitCmp_ne_gt {u v : Unit} : unitCmp u v ≠ Ordering.gt ↔ hpPosLe u v := by
  simp only [unitCmp, hpPosLe, then_ne_gt, intCmpIf_lt, intCmpIf_eq, ptCmp_ne_gt]

theorem unitCmp_eq_lt {u v : Unit} :
    unitCmp u v = Ordering.lt ↔
      (u.hit_pts < v.hit_pts ∨ (u.hit_pts = v.hit_pts ∧ Pt.rdLt u.pos v.pos)) := by
  simp only [unitCmp, then_eq_lt, intCmpIf_lt, intCmpIf_eq, ptCmp_eq_lt]

theorem pathLe_refl (p : Path) : pathLe p p := by
  simp [pathLe]

theorem pathLe_trans {p q r : Path} (h1 : pathLe p q) (h2 : pathLe q r) :
    pathLe p r := by
  obtain ⟨a1, ⟨a2, a3⟩, ⟨a4, a5⟩⟩ := p
  obtain ⟨b1, ⟨b2, b3⟩, ⟨b4, b5⟩⟩ := q
  obtain ⟨c1, ⟨c2, c3⟩, ⟨c4, c5⟩⟩ := r
  simp only [pathLe, Pt.rdLt, Pt.mk.injEq] at h1 h2 ⊢
  omega

theorem pathLe_of_not_lt {p q : Path} (h : Path.cmp p q ≠ Ordering.lt) :
    pathLe q p := by
  have h' : ¬ (p.len < q.len ∨ (p.len = q.len ∧ (Pt.rdLt p.dest q.dest ∨
      (p.dest = q.dest ∧ Pt.rdLt p.origin q.origin)))) :=
    fun hh => h (pathCmp_eq_lt.mpr hh)
  obtain ⟨a1, ⟨a2, a3⟩, ⟨a4, a5⟩⟩ := p
  obtain ⟨b1, ⟨b2, b3⟩, ⟨b4, b5⟩⟩ := q
  simp only [pathLe, Pt.rdLt, Pt.mk.injEq] at h' ⊢
  omega

theorem hpPosLe_refl (u : Unit) : hpPosLe u u := by
  simp [hpPosLe]

theorem hpPosLe_trans {u v w : Unit} (h1 : hpPosLe u v) (h2 : hpPosLe v w) :
    hpPosLe u w := by
  obtain ⟨⟨a2, a3⟩, ak, a1⟩ := u
  obtain ⟨⟨b2, b3⟩, bk, b1⟩ := v
  obtain ⟨⟨c2, c3⟩, ck, c1⟩ := w
  simp only [hpPosLe, Pt.rdLt, Pt.mk.injEq] at h1 h2 ⊢
  omega

theorem hpPosLe_of_not_lt {u v : Unit} (h : unitCmp u v ≠ Ordering.lt) :
    hpPosLe v u := by
  have h' : ¬ (u.hit_pts < v.hit_pts ∨
      (u.hit_pts = v.hit_pts ∧ Pt.rdLt u.pos v.pos)) :=
    fun hh => h (unitCmp_eq_lt.mpr hh)
  obtain ⟨⟨a2, a3⟩, ak, a1⟩ := u
  obtain ⟨⟨b2, b3⟩, bk, b1⟩ := v
  simp only [hpPosLe, Pt.rdLt, Pt.mk.injEq] at h' ⊢
  omega

/-! The first-minimum selection. -/

theorem foldlMin_spec {α : Type} (cmp : α → α → Ordering)
    (hrefl : ∀ a, cmp a a ≠ Ordering.gt)
    (hconn : ∀ a b, cmp a b ≠ Ordering.lt → cmp b a ≠ Ordering.gt)
    (htr : ∀ a b c, cmp a b ≠ Ordering.gt → cmp b c ≠ Ordering.gt →
      cmp a c ≠ Ordering.gt) :
    ∀ (xs : List α) (x : α),
      (xs.foldl (fun best y => if cmp y best = Ordering.lt then y else best) x = x ∨
        xs.foldl (fun best y => if cmp y best = Ordering.lt then y else best) x ∈ xs) ∧
      cmp (xs.foldl (fun best y => if cmp y best = Ordering.lt then y else best) x) x ≠
        Ordering.gt ∧
      ∀ y ∈ xs,
        cmp (xs.foldl (fun best y => if cmp y best = Ordering.lt then y else best) x) y ≠
          Ordering.gt := by
  intro xs
  induction xs with
  | nil => intro x; exact ⟨Or.inl rfl, hrefl x, by simp⟩
  | cons z zs ih =>
    intro x
    by_cases hc : cmp z x = Ordering.lt
    · simp only [List.foldl_cons, if_pos hc]
      obtain ⟨ihmem, ihbd, ihall⟩ := ih z
      refine ⟨?_, ?_, ?_⟩
      · rcases ihmem with h | h
        · exact Or.inr (by rw [h]; exact List.mem_cons_self z zs)
        · exact Or.inr (List.mem_cons_of_mem z h)
      · exact htr _ z x ihbd (by simp [hc])
      · intro y hy
        rcases List.mem_cons.mp hy with rfl | hy'
        · exact ihbd
        · exact ihall y hy'
    · simp only [List.foldl_cons, if_neg hc]
      obtain ⟨ihmem, ihbd, ihall⟩ := ih x
      refine ⟨?_, ?_, ?_⟩
      · rcases ihmem with h | h
        · exact Or.inl h
        · exact Or.inr (List.mem_cons_of_mem z h)
      · exact ihbd
      · intro y hy
        rcases List.mem_cons.mp hy with rfl | hy'
        · exact htr _ x y ihbd (hconn y x hc)
        · exact ihall y hy'

theorem selectBy_spec {α : Type} {cmp : α → α → Ordering}
    (hrefl : ∀ a, cmp a a ≠ Ordering.gt)
    (hconn : ∀ a b, cmp a b ≠ Ordering.lt → cmp b a ≠ Ordering.gt)
    (htr : ∀ a b c, cmp a b ≠ Ordering.gt → cmp b c ≠ Ordering.gt →
      cmp a c ≠ Ordering.gt)
    {l : List α} {x : α} (h : selectBy cmp l = some x) :
    x ∈ l ∧ ∀ y ∈ l, cmp x y ≠ Ordering.gt := by
  cases l with
  | nil => simp [selectBy] at h
  | cons a as =>
    simp only [selectBy, Option.some.injEq] at h
    obtain ⟨hmem, hbd, hall⟩ := foldlMin_spec cmp hrefl hconn htr as a
    rw [h] at hmem hbd hall
    constructor
    · rcases hmem with he | hm
      · rw [he]
        exact List.mem_cons_self a as
      · exact List.mem_cons_of_mem a hm
    · intro y hy
      rcases List.mem_cons.mp hy with rfl | hy'
      · exact hbd
      · exact hall y hy'

theorem selectBy_mem {α : Type} {cmp : α → α → Ordering} {l : List α} {x : α}
    (h : selectBy cmp l = some x) : x ∈ l := by
  cases l with
  | nil => simp [selectBy] at h
  | cons a as =>
    simp only [selectBy, Option.some.injEq] at h
    have : ∀ (xs : List α) (z : α),
        xs.foldl (fun best y => if cmp y best = Ordering.lt then y else best) z = z ∨
          xs.foldl (fun best y => if cmp y best = Ordering.lt then y else best) z ∈ xs := by
      intro xs
      induction xs with
      | nil => intro z; exact Or.inl rfl
      | cons w ws ihw =>
        intro z
        by_cases hc : cmp w z = Ordering.lt
        · simp only [List.foldl_cons, if_pos hc]
          rcases ihw w with h' | h'
          · exact Or.inr (by rw [h']; exact List.mem_cons_self w ws)
          · exact Or.inr (List.mem_cons_of_mem w h')
        · simp only [List.foldl_cons, if_neg hc]
          rcases ihw z with h' | h'
          · exact Or.inl h'
          · exact Or.inr (List.mem_cons_of_mem w h')
    obtain h' | h' := this as a
    · rw [h] at h'
      exact h' ▸ List.mem_cons_self a as
    · rw [h] at h'
      exact List.mem_cons_of_mem a h'

theorem selectBy_eq_none {α : Type} {cmp : α → α → Ordering} {l : List α} :
    selectBy cmp l = none ↔ l = [] := by
  cases l <;> simp [selectBy]

theorem selectPath_spec {l : List Path} {p : Path} (h : selectBy Path.cmp l = some p) :
    p ∈ l ∧ ∀ q ∈ l, pathLe p q := by
  obtain ⟨hmem, hall⟩ := selectBy_spec
    (fun a => pathCmp_ne_gt.mpr (pathLe_refl a))
    (fun a b hab => pathCmp_ne_gt.mpr (pathLe_of_not_lt hab))
    (fun a b c h1 h2 => pathCmp_ne_gt.mpr
      (pathLe_trans (pathCmp_ne_gt.mp h1) (pathCmp_ne_gt.mp h2))) h
  exact ⟨hmem, fun q hq => pathCmp_ne_gt.mp (hall q hq)⟩

theorem selectTarget_spec {b : Board} {l : List Nat} {j : Nat}
    (h : selectBy (fun j k => unitCmp (b.unit j) (b.unit k)) l = some j) :
    j ∈ l ∧ ∀ k ∈ l, hpPosLe (b.unit j) (b.unit k) := by
  obtain ⟨hmem, hall⟩ := @selectBy_spec Nat (fun j k => unitCmp (b.unit j) (b.unit k))
    (fun a => unitCmp_ne_gt.mpr (hpPosLe_refl _))
    (fun a c hac => unitCmp_ne_gt.mpr (hpPosLe_of_not_lt hac))
    (fun a c d h1 h2 => unitCmp_ne_gt.mpr
      (hpPosLe_trans (unitCmp_ne_gt.mp h1) (unitCmp_ne_gt.mp h2))) l j h
  exact ⟨hmem, fun k hk => unitCmp_ne_gt.mp (hall k hk)⟩

theorem shortest_path_shape {m : Map} {src tgt : Pt} {excl : List Pt} {p : Path}
    (h : m.shortest_path src tgt excl = some p) : p.origin = src ∧ p.dest = tgt := by
  simp only [Map.shortest_path, Option.map_eq_some'] at h
  obtain ⟨d, _, hp⟩ := h
  rw [← hp]
  exact ⟨rfl, rfl⟩

theorem moveCandidates_shape {b : Board} {i : Nat} {T : List Nat} {q : Path}
    (h : q ∈ b.moveCandidates i T) :
    q.origin ∈ b.in_range (b.unit i).pos ∧
      ∃ j ∈ T, q.dest ∈ b.in_range ((b.unit j).pos) := by
  simp only [Board.moveCandidates, List.mem_flatMap, List.mem_filterMap] at h
  obtain ⟨o, ho, c, hc, hsp⟩ := h
  obtain ⟨h1, h2⟩ := shortest_path_shape hsp
  rw [h1, h2]
  exact ⟨ho, hc⟩

/-- Claim C1: during a unit's movement step, among all candidate paths (from
any open unoccupied orthogonal neighbour of the mover, to any in-range cell,
as returned by the shortest-path query), the selection picks one of minimal
length, breaking ties first by destination cell in reading order, then by
first-step cell in reading order; the unit then steps onto that path's
first-step cell.  A move happens at all iff the candidate set is non-empty. -/
theorem c1_move_selects_min_path : ∀ (b : Board) (i : Nat) (T : List Nat),
    ((b.move_unit i T).2 = MoveOutcome.Unreachable ↔ b.moveCandidates i T = []) ∧
    (∀ b' frm dst, b.move_unit i T = (b', MoveOutcome.Moved frm dst) →
      frm = (b.unit i).pos ∧
      ∃ p ∈ b.moveCandidates i T,
        dst = p.origin ∧
        p.origin ∈ b.in_range (b.unit i).pos ∧
        (∃ j ∈ T, p.dest ∈ b.in_range ((b.unit j).pos)) ∧
        ∀ q ∈ b.moveCandidates i T, pathLe p q) := by
  intro b i T
  cases hsel : selectBy Path.cmp (b.moveCandidates i T) with
  | none =>
    have hmv : b.move_unit i T = (b, MoveOutcome.Unreachable) := by
      simp only [Board.move_unit, hsel]
    constructor
    · exact ⟨fun _ => selectBy_eq_none.mp hsel, fun _ => by rw [hmv]⟩
    · intro b' frm dst h
      rw [hmv] at h
      exact MoveOutcome.noConfusion (congrArg Prod.snd h)
  | some p =>
    obtain ⟨hmem, hall⟩ := selectPath_spec hsel
    have hmv : b.move_unit i T =
        ({ b with all_units := b.all_units.set i { b.unit i with pos := p.origin } },
          MoveOutcome.Moved (b.unit i).pos p.origin) := by
      simp only [Board.move_unit, hsel]
    constructor
    · constructor
      · intro hcontr
        rw [hmv] at hcontr
        exact MoveOutcome.noConfusion hcontr
      · intro hnil
        rw [hnil] at hmem
        exact absurd hmem (List.not_mem_nil p)
    · intro b' frm dst h
      rw [hmv] at h
      have h2 := congrArg Prod.snd h
      injection h2 with hf hd
      obtain ⟨ho, hd'⟩ := moveCandidates_shape hmem
      exact ⟨hf.symm, p, hmem, hd.symm, ho, hd', hall⟩

/-- Witness for C1 on the one-gap duel board: the elf at (1,1) moves to
(1,2), the origin of the unique minimal candidate path. -/
theorem c1_witness :
    (⟨1, 1⟩ : Pt) = (duelBoard.unit 0).pos ∧
    ∃ p ∈ duelBoard.moveCandidates 0 [1],
      (⟨1, 2⟩ : Pt) = p.origin ∧
      p.origin ∈ duelBoard.in_range (duelBoard.unit 0).pos ∧
      (∃ j ∈ [1], p.dest ∈ duelBoard.in_range ((duelBoard.unit j).pos)) ∧
      ∀ q ∈ duelBoard.moveCandidates 0 [1], pathLe p q :=
  (c1_move_selects_min_path duelBoard 0 [1]).2
    (duelBoard.move_unit 0 [1]).1 ⟨1, 1⟩ ⟨1, 2⟩ (by decide)

/-- Claim C3: in the attack step, the potential targets are exactly the living
enemies; with no adjacent target the attack changes nothing; otherwise the
adjacent target minimal by (hit points, position in reading order) loses
exactly the attacker's attack power, and no other unit changes. -/
theorem c3_attack_min_hp_target : ∀ (b : Board) (i : Nat) (T : List Nat),
    (∀ j ∈ b.potentialTargets i,
      0 < (b.unit j).hit_pts ∧ (b.unit j).kind ≠ (b.unit i).kind) ∧
    (b.adjTargets i T = [] → b.attack i T = (b, AttackOutcome.NotInRange)) ∧
    (∀ b' t', b.attack i T = (b', AttackOutcome.Attacked t') →
      ∃ j ∈ b.adjTargets i T,
        (∀ k ∈ b.adjTargets i T, hpPosLe (b.unit j) (b.unit k)) ∧
        t' = { b.unit j with hit_pts := (b.unit j).hit_pts -
          ((lookupPwr b.attack_pwr (b.unit i).kind).getD 3 : Int) } ∧
        b'.all_units = b.all_units.set j t' ∧
        b'.map = b.map ∧ b'.attack_pwr = b.attack_pwr) := by
  intro b i T
  refine ⟨?_, ?_, ?_⟩
  · intro j hj
    simp only [Board.potentialTargets, List.mem_filter, List.mem_range,
      Bool.and_eq_true, decide_eq_true_eq] at hj
    exact hj.2
  · intro hempty
    simp only [Board.attack, hempty, selectBy]
  · intro b' t' h
    cases hsel : selectBy (fun j k => unitCmp (b.unit j) (b.unit k)) (b.adjTargets i T) with
    | none =>
      have hatk : b.attack i T = (b, AttackOutcome.NotInRange) := by
        simp only [Board.attack, hsel]
      rw [hatk] at h
      exact AttackOutcome.noConfusion (congrArg Prod.snd h)
    | some j =>
      obtain ⟨hmem, hall⟩ := selectTarget_spec hsel
      have hatk : b.attack i T =
          ({ b with all_units := b.all_units.set j { b.unit j with
              hit_pts := (b.unit j).hit_pts -
                ((lookupPwr b.attack_pwr (b.unit i).kind).getD 3 : Int) } },
            AttackOutcome.Attacked { b.unit j with
              hit_pts := (b.unit j).hit_pts -
                ((lookupPwr b.attack_pwr (b.unit i).kind).getD 3 : Int) }) := by
        simp only [Board.attack, hsel]
      rw [hatk] at h
      rw [Prod.mk.injEq] at h
      obtain ⟨hb, ht0⟩ := h
      injection ht0 with ht
      subst hb
      subst ht
      exact ⟨j, hmem, hall, rfl, rfl, rfl, rfl⟩

theorem unit_mem {b : Board} {i : Nat} (hi : i < b.all_units.length) :
    b.unit i ∈ b.all_units := by
  simp only [Board.unit, List.getD_eq_getElem?_getD, List.getElem?_eq_getElem hi,
    Option.getD_some]
  exact List.getElem_mem hi

theorem unit_getElem {b : Board} {i : Nat} (hi : i < b.all_units.length) :
    b.all_units[i] = b.unit i := by
  simp only [Board.unit, List.getD_eq_getElem?_getD, List.getElem?_eq_getElem hi,
    Option.getD_some]

theorem in_range_not_occupied {b : Board} {pos c : Pt} (h : c ∈ b.in_range pos) :
    c ∉ b.current_unit_positions := by
  simp only [Board.in_range, List.mem_filter] at h
  intro hc
  rw [elemP_iff.mpr hc] at h
  exact Bool.noConfusion h.2

theorem potentialTargets_bound {b : Board} {i j : Nat}
    (h : j ∈ b.potentialTargets i) : j < b.all_units.length := by
  simp only [Board.potentialTargets, List.mem_filter, List.mem_range] at h
  exact h.1

theorem adjTargets_subset {b : Board} {i : Nat} {T : List Nat} {j : Nat}
    (h : j ∈ b.adjTargets i T) : j ∈ T := by
  simp only [Board.adjTargets, List.mem_filter] at h
  exact h.1

/-! Shape of the attack, move and turn results. -/

theorem attack_result {b : Board} {i : Nat} {T : List Nat} :
    (b.attack i T).1 = b ∨
    ∃ j ∈ b.adjTargets i T, (b.attack i T).1 =
      { b with all_units := b.all_units.set j { b.unit j with
          hit_pts := (b.unit j).hit_pts -
            ((lookupPwr b.attack_pwr (b.unit i).kind).getD 3 : Int) } } := by
  cases hsel : selectBy (fun j k => unitCmp (b.unit j) (b.unit k)) (b.adjTargets i T) with
  | none =>
    left
    simp only [Board.attack, hsel]
  | some j =>
    right
    exact ⟨j, (selectTarget_spec hsel).1, by simp only [Board.attack, hsel]⟩

theorem move_result {b : Board} {i : Nat} {T : List Nat} :
    (b.move_unit i T).1 = b ∨
    ∃ dst, dst ∉ b.current_unit_positions ∧ (b.move_unit i T).1 =
      { b with all_units := b.all_units.set i { b.unit i with pos := dst } } := by
  cases hsel : selectBy Path.cmp (b.moveCandidates i T) with
  | none =>
    left
    simp only [Board.move_unit, hsel]
  | some p =>
    right
    obtain ⟨hmem, _⟩ := selectPath_spec hsel
    obtain ⟨ho, _⟩ := moveCandidates_shape hmem
    exact ⟨p.origin, in_range_not_occupied ho, by simp only [Board.move_unit, hsel]⟩

theorem length_attack {b : Board} {i : Nat} {T : List Nat} :
    ((b.attack i T).1).all_units.length = b.all_units.length := by
  rcases @attack_result b i T with h | ⟨j, _, h⟩
  · rw [h]
  · rw [h]
    exact List.length_set b.all_units j _

theorem length_move {b : Board} {i : Nat} {T : List Nat} :
    ((b.move_unit i T).1).all_units.length = b.all_units.length := by
  rcases @move_result b i T with h | ⟨dst, _, h⟩
  · rw [h]
  · rw [h]
    exact List.length_set b.all_units i _

theorem length_turn {b : Board} {i : Nat} :
    ((b.turn i).1).all_units.length = b.all_units.length := by
  simp only [Board.turn]
  split
  · rfl
  · split
    · rfl
    · split
      · rename_i b1 heq
        split
        · rename_i b2 heq2
          have e1 : b1.all_units.length = b.all_units.length := by
            have := @length_attack b i (b.potentialTargets i)
            rw [heq] at this
            exact this
          have e2 : b2.all_units.length = b1.all_units.length := by
            have := @length_move b1 i (b.potentialTargets i)
            rw [heq2] at this
            exact this
          exact e2.trans e1
        · rename_i b2 frm dst heq2
          have e1 : b1.all_units.length = b.all_units.length := by
            have := @length_attack b i (b.potentialTargets i)
            rw [heq] at this
            exact this
          have e2 : b2.all_units.length = b1.all_units.length := by
            have := @length_move b1 i (b.potentialTargets i)
            rw [heq2] at this
            exact this
          have e3 := @length_attack b2 i (b.potentialTargets i)
          exact (e3.trans e2).trans e1
      · rename_i b1 atk hne heq
        have e1 : b1.all_units.length = b.all_units.length := by
          have := @length_attack b i (b.potentialTargets i)
          rw [heq] at this
          exact this
        exact e1

theorem length_roundGo {n : Nat} : ∀ {b : Board} {i : Nat} {acc : List TurnOutcome},
    ((Board.roundGo b i n acc).1).all_units.length = b.all_units.length := by
  induction n with
  | zero => intro b i acc; rfl
  | succ m ih =>
    intro b i acc
    unfold Board.roundGo
    split
    · rename_i b1 heq
      have e1 : b1.all_units.length = b.all_units.length := by
        have := @length_turn b i
        rw [heq] at this
        exact this
      exact e1
    · rename_i b1 out hne heq
      have e1 : b1.all_units.length = b.all_units.length := by
        have := @length_turn b i
        rw [heq] at this
        exact this
      exact ih.trans e1

theorem length_round {b : Board} :
    ((b.round).1).all_units.length = b.all_units.length := by
  unfold Board.round
  exact length_roundGo.trans (List.length_insertionSort _ _)

/-- Witness for C3: on the corridor duel the goblin hits the adjacent elf for
the default 3 damage, and on the walled board no target is adjacent and the
state is unchanged. -/
theorem c3_witness :
    (∃ j ∈ tinyBoard.adjTargets 0 [1],
      (∀ k ∈ tinyBoard.adjTargets 0 [1], hpPosLe (tinyBoard.unit j) (tinyBoard.unit k)) ∧
      (⟨⟨1, 2⟩, Kind.Elf, 197⟩ : Unit) = { tinyBoard.unit j with
        hit_pts := (tinyBoard.unit j).hit_pts -
          ((lookupPwr tinyBoard.attack_pwr (tinyBoard.unit 0).kind).getD 3 : Int) } ∧
      ((tinyBoard.attack 0 [1]).1).all_units =
        tinyBoard.all_units.set j ⟨⟨1, 2⟩, Kind.Elf, 197⟩ ∧
      ((tinyBoard.attack 0 [1]).1).map = tinyBoard.map ∧
      ((tinyBoard.attack 0 [1]).1).attack_pwr = tinyBoard.attack_pwr) ∧
    boxBoard.attack 0 [1] = (boxBoard, AttackOutcome.NotInRange) :=
  ⟨(c3_attack_min_hp_target tinyBoard 0 [1]).2.2
      (tinyBoard.attack 0 [1]).1 ⟨⟨1, 2⟩, Kind.Elf, 197⟩ (by decide),
    (c3_attack_min_hp_target boxBoard 0 [1]).2.1 (by decide)⟩

/-- Counterexample to claim C2 as stated: on the one-gap duel board the moving
elf is alive, its own current cell is in the exclusion set
(`current_unit_positions`) used by the shortest-path queries, yet no other
unit occupies that cell — so the excluded set is not "exactly the positions
occupied by other living units" and the mover's own cell is not exempt. -/
theorem c2_counterexample :
    0 < (duelBoard.unit 0).hit_pts ∧
    (duelBoard.unit 0).pos ∈ duelBoard.current_unit_positions ∧
    ∀ j, j < duelBoard.all_units.length → j ≠ 0 →
      (duelBoard.unit j).pos ≠ (duelBoard.unit 0).pos := by decide

/-- Claim C2 (amended): the set of cells excluded from traversal during
movement, `current_unit_positions`, is exactly the set of positions of all
living units, including the moving unit's own current cell (which is therefore
excluded, not traversable). -/
theorem c2_exclusion_is_all_living : ∀ (b : Board),
    (∀ p, p ∈ b.current_unit_positions ↔
      ∃ u, u ∈ b.all_units ∧ 0 < u.hit_pts ∧ u.pos = p) ∧
    (∀ i, i < b.all_units.length → 0 < (b.unit i).hit_pts →
      (b.unit i).pos ∈ b.current_unit_positions) := by
  intro b
  refine ⟨fun p => mem_current_unit_positions, ?_⟩
  intro i hi hp
  exact mem_current_unit_positions.mpr ⟨b.unit i, unit_mem hi, hp, rfl⟩

/-- Witness for C2 (amended): on the one-gap duel board the living mover's own
cell is excluded. -/
theorem c2_witness : (duelBoard.unit 0).pos ∈ duelBoard.current_unit_positions :=
  (c2_exclusion_is_all_living duelBoard).2 0 (by decide) (by decide)

/-- Claim C10: dead units never block movement.  Membership in the occupied
set used for in-range computation and path exclusion is exactly "some living
unit stands there", and an open neighbour cell all of whose stored units are
dead is in range, i.e. may be moved onto or traversed. -/
theorem c10_dead_units_never_block : ∀ (b : Board),
    (∀ p, p ∈ b.current_unit_positions ↔
      ∃ u, u ∈ b.all_units ∧ 0 < u.hit_pts ∧ u.pos = p) ∧
    (∀ pos c, c ∈ b.map.adjacent pos →
      (∀ u, u ∈ b.all_units → u.pos = c → u.hit_pts ≤ 0) →
      c ∈ b.in_range pos) := by
  intro b
  refine ⟨fun p => mem_current_unit_positions, ?_⟩
  intro pos c hadj hdead
  simp only [Board.in_range, List.mem_filter]
  refine ⟨hadj, ?_⟩
  cases hel : elemP c b.current_unit_positions with
  | false => rfl
  | true =>
    obtain ⟨u, hu, hhp, hpos⟩ := mem_current_unit_positions.mp (elemP_iff.mp hel)
    have := hdead u hu hpos
    omega

/-- Witness for C10: on the corridor board whose left goblin is dead, cell
(1,1) is adjacent to (1,2), only the dead goblin occupies it, and it is in
range. -/
theorem c10_witness : (⟨1, 1⟩ : Pt) ∈ deadBoard.in_range ⟨1, 2⟩ :=
  (c10_dead_units_never_block deadBoard).2 ⟨1, 2⟩ ⟨1, 1⟩ (by decide) (by decide)

/-- Counterexample to claim C7 as stated: on the corridor board with a dead
goblin in storage, the dead unit is excluded from same-round bookkeeping
immediately — its cell does not block movement and it is not a potential
target of the elf — and the round's end does not prune it from storage (the
unit count never shrinks). -/
theorem c7_counterexample :
    (deadBoard.unit 0).hit_pts ≤ 0 ∧
    (deadBoard.unit 0).pos ∉ deadBoard.current_unit_positions ∧
    deadBoard.potentialTargets 1 = [2] ∧
    ((deadBoard.round).1).all_units.length = deadBoard.all_units.length := by decide

/-- Claim C7 (amended): a unit whose hit points drop to zero or below stays in
storage for ever — rounds never remove units — but it is excluded from all
bookkeeping immediately, not only at round end: its own turn is a no-op, it is
never among any unit's potential targets, and a cell where only dead units
stand blocks nobody. -/
theorem c7_dead_in_storage_not_in_bookkeeping : ∀ (b : Board),
    (∀ i, (b.unit i).hit_pts ≤ 0 → b.turn i = (b, TurnOutcome.Dead (b.unit i))) ∧
    (∀ i j, j ∈ b.potentialTargets i → 0 < (b.unit j).hit_pts) ∧
    (∀ p, (∀ u, u ∈ b.all_units → u.pos = p → u.hit_pts ≤ 0) →
      p ∉ b.current_unit_positions) ∧
    ((b.round).1).all_units.length = b.all_units.length := by
  intro b
  refine ⟨?_, ?_, ?_, length_round⟩
  · intro i h
    simp only [Board.turn, if_pos h]
  · intro i j hj
    simp only [Board.potentialTargets, List.mem_filter, List.mem_range,
      Bool.and_eq_true, decide_eq_true_eq] at hj
    exact hj.2.1
  · intro p hdead hp
    obtain ⟨u, hu, hhp, hpos⟩ := mem_current_unit_positions.mp hp
    have := hdead u hu hpos
    omega

/-- Witness for C7 (amended): the dead goblin's turn on the corridor board is
a no-op. -/
theorem c7_witness :
    deadBoard.turn 0 = (deadBoard, TurnOutcome.Dead (deadBoard.unit 0)) :=
  (c7_dead_in_storage_not_in_bookkeeping deadBoard).1 0 (by decide)

/-- Counterexample to claim C8 as stated: on the walled board the elf's turn
reaches the movement step (it is alive, has a living enemy, and is not in
attack range), finds no reachable in-range cell, and its turn ends as
`Unreachable` with no second attack check — the turn outcome carries no
attack at all. -/
theorem c8_counterexample :
    0 < (boxBoard.unit 0).hit_pts ∧
    boxBoard.potentialTargets 0 = [1] ∧
    (boxBoard.attack 0 [1]).2 = AttackOutcome.NotInRange ∧
    boxBoard.turn 0 = (boxBoard, TurnOutcome.Unreachable) := by decide

/-- Claim C8 (amended): in a turn that reaches the movement step, the attack
check is re-run after movement exactly when a move was actually found: after a
`Moved` outcome the unit attacks from its new position on the moved board,
while after an `Unreachable` outcome the turn ends immediately with no second
attack check. -/
theorem c8_attack_recheck_only_after_move : ∀ (b : Board) (i : Nat),
    0 < (b.unit i).hit_pts →
    ¬(b.potentialTargets i).isEmpty = true →
    ∀ b1, b.attack i (b.potentialTargets i) = (b1, AttackOutcome.NotInRange) →
    (∀ b2 frm dst,
      b1.move_unit i (b.potentialTargets i) = (b2, MoveOutcome.Moved frm dst) →
      b.turn i = ((b2.attack i (b.potentialTargets i)).1,
        TurnOutcome.Alive (b.unit i) (some (MoveOutcome.Moved frm dst))
          (b2.attack i (b.potentialTargets i)).2)) ∧
    (∀ b2, b1.move_unit i (b.potentialTargets i) = (b2, MoveOutcome.Unreachable) →
      b.turn i = (b2, TurnOutcome.Unreachable)) := by
  intro b i hlive hne b1 hatk
  have hlive' : ¬(b.unit i).hit_pts ≤ 0 := by omega
  constructor
  · intro b2 frm dst hmv
    simp only [Board.turn, if_neg hlive', if_neg hne, hatk, hmv]
  · intro b2 hmv
    simp only [Board.turn, if_neg hlive', if_neg hne, hatk, hmv]

/-- Witness for C8 (amended): on the walled board the boxed-in elf's turn ends
`Unreachable`; on the one-gap duel board the elf moves and the attack is
re-run from the new cell. -/
theorem c8_witness :
    boxBoard.turn 0 = (boxBoard, TurnOutcome.Unreachable) ∧
    duelBoard.turn 0 = (((duelBoard.move_unit 0 [1]).1.attack 0 [1]).1,
      TurnOutcome.Alive (duelBoard.unit 0) (some (MoveOutcome.Moved ⟨1, 1⟩ ⟨1, 2⟩))
        ((duelBoard.move_unit 0 [1]).1.attack 0 [1]).2) :=
  ⟨(c8_attack_recheck_only_after_move boxBoard 0 (by decide) (by decide)
      boxBoard (by decide)).2 boxBoard (by decide),
    (c8_attack_recheck_only_after_move duelBoard 0 (by decide) (by decide)
      duelBoard (by decide)).1 (duelBoard.move_unit 0 [1]).1 ⟨1, 1⟩ ⟨1, 2⟩ (by decide)⟩

/-! Turns that discover no targets, and the round / solver loops. -/

theorem turn_dead {b : Board} {i : Nat} (h : (b.unit i).hit_pts ≤ 0) :
    b.turn i = (b, TurnOutcome.Dead (b.unit i)) := by
  simp only [Board.turn, if_pos h]

theorem turn_noTargets_eq {b : Board} {i : Nat} (h1 : ¬(b.unit i).hit_pts ≤ 0)
    (h2 : (b.potentialTargets i).isEmpty = true) :
    b.turn i = (b, TurnOutcome.NoTargets) := by
  simp only [Board.turn, if_neg h1, if_pos h2]

theorem turn_not_noTargets {b : Board} {i : Nat} (h1 : ¬(b.unit i).hit_pts ≤ 0)
    (h2 : ¬(b.potentialTargets i).isEmpty = true) :
    (b.turn i).2 ≠ TurnOutcome.NoTargets := by
  simp only [Board.turn, if_neg h1, if_neg h2]
  split
  · split
    · exact fun hc => TurnOutcome.noConfusion hc
    · exact fun hc => TurnOutcome.noConfusion hc
  · exact fun hc => TurnOutcome.noConfusion hc

theorem of_turn_noTargets {b : Board} {i : Nat}
    (h : (b.turn i).2 = TurnOutcome.NoTargets) :
    0 < (b.unit i).hit_pts ∧ b.potentialTargets i = [] := by
  by_cases h1 : (b.unit i).hit_pts ≤ 0
  · rw [turn_dead h1] at h
    exact absurd h (by simp)
  · by_cases h2 : (b.potentialTargets i).isEmpty = true
    · exact ⟨by omega, List.isEmpty_iff.mp h2⟩
    · exact absurd h (turn_not_noTargets h1 h2)

theorem turn_noTargets_state {b : Board} {i : Nat}
    (h : (b.turn i).2 = TurnOutcome.NoTargets) :
    b.turn i = (b, TurnOutcome.NoTargets) := by
  obtain ⟨h1, h2⟩ := of_turn_noTargets h
  exact turn_noTargets_eq (by omega) (by rw [h2]; rfl)

theorem potentialTargets_eq_nil {b : Board} {i : Nat} :
    b.potentialTargets i = [] ↔
      ∀ j, j < b.all_units.length → 0 < (b.unit j).hit_pts →
        (b.unit j).kind = (b.unit i).kind := by
  simp only [Board.potentialTargets, List.filter_eq_nil_iff, List.mem_range,
    Bool.and_eq_true, decide_eq_true_eq, not_and]
  constructor
  · intro h j hj hhp
    by_cases hk : (b.unit j).kind = (b.unit i).kind
    · exact hk
    · exact absurd hk (h j hj hhp)
  · intro h j hj hhp
    intro hk
    exact hk (h j hj hhp)

theorem roundGo_noTargets {b : Board} {i n : Nat} {acc : List TurnOutcome}
    (h : (b.turn i).2 = TurnOutcome.NoTargets) :
    Board.roundGo b i (n + 1) acc = (b, RoundOutcome.Partial acc.reverse) := by
  have hpair := turn_noTargets_state h
  simp only [Board.roundGo, hpair]

theorem solveP1Go_partial {b : Board} {rounds fuel : Nat} {b1 : Board}
    {o : List TurnOutcome} (h : b.round = (b1, RoundOutcome.Partial o)) :
    Board.solveP1Go b rounds (fuel + 1) = some (b1, rounds, livingHpSum b1) := by
  simp only [Board.solveP1Go, h]

/-- Claim C4: the instant a unit's target discovery finds no living enemies
— it is alive and its potential-target list is empty, i.e. every living unit
is of its own faction — its turn reports `NoTargets`, the round stops right
there as `Partial` with no further turns and no state change from that turn,
and the part-1 loop ends the battle without counting that round. -/
theorem c4_no_targets_partial_round : ∀ (b : Board),
    (∀ i, (b.turn i).2 = TurnOutcome.NoTargets ↔
      0 < (b.unit i).hit_pts ∧ b.potentialTargets i = []) ∧
    (∀ i, b.potentialTargets i = [] ↔
      ∀ j, j < b.all_units.length → 0 < (b.unit j).hit_pts →
        (b.unit j).kind = (b.unit i).kind) ∧
    (∀ i n acc, (b.turn i).2 = TurnOutcome.NoTargets →
      Board.roundGo b i (n + 1) acc = (b, RoundOutcome.Partial acc.reverse)) ∧
    (∀ rounds fuel b1 o, b.round = (b1, RoundOutcome.Partial o) →
      Board.solveP1Go b rounds (fuel + 1) = some (b1, rounds, livingHpSum b1)) := by
  intro b
  refine ⟨?_, fun i => potentialTargets_eq_nil, ?_, ?_⟩
  · intro i
    constructor
    · exact of_turn_noTargets
    · intro ⟨h1, h2⟩
      rw [turn_noTargets_eq (by omega) (by rw [h2]; rfl)]
  · intro i n acc h
    exact roundGo_noTargets h
  · intro rounds fuel b1 o h
    exact solveP1Go_partial h

/-- Witness for C4 on the single-elf board: the first turn finds no targets,
the round is partial immediately, and the solver stops without counting it. -/
theorem c4_witness :
    ((soloBoard.turn 0).2 = TurnOutcome.NoTargets ↔
      0 < (soloBoard.unit 0).hit_pts ∧ soloBoard.potentialTargets 0 = []) ∧
    Board.roundGo soloBoard 0 1 [] = (soloBoard, RoundOutcome.Partial []) ∧
    Board.solveP1Go soloBoard 5 1 = some (soloBoard, 5, livingHpSum soloBoard) :=
  ⟨(c4_no_targets_partial_round soloBoard).1 0,
    (c4_no_targets_partial_round soloBoard).2.2.1 0 0 [] (by decide),
    (c4_no_targets_partial_round soloBoard).2.2.2 5 0 soloBoard [] (by decide)⟩

theorem roundIter_shift {b : Board} : ∀ {n : Nat},
    roundIter b (n + 1) = roundIter ((b.round).1) n := by
  intro n
  induction n with
  | zero => rfl
  | succ m ih =>
    show ((roundIter b (m + 1)).round).1 = ((roundIter ((b.round).1) m).round).1
    rw [ih]

theorem solveP1Go_spec : ∀ (fuel : Nat) (b : Board) (rounds : Nat) {b' : Board}
    {rds s : Nat}, Board.solveP1Go b rounds fuel = some (b', rds, s) →
    s = livingHpSum b' ∧
    ∃ k, rds = rounds + k ∧
      b' = ((roundIter b k).round).1 ∧
      (((roundIter b k).round).2).isPartial = true ∧
      ∀ j, j < k → (((roundIter b j).round).2).isPartial = false := by
  intro fuel
  induction fuel with
  | zero =>
    intro b rounds b' rds s h
    exact absurd h (by simp [Board.solveP1Go])
  | succ m ih =>
    intro b rounds b' rds s h
    simp only [Board.solveP1Go] at h
    cases hr : b.round with
    | mk b1 out =>
      rw [hr] at h
      cases out with
      | Partial ts =>
        simp only [Option.some.injEq, Prod.mk.injEq] at h
        obtain ⟨hb1, hrds, hs⟩ := h
        subst hb1
        subst hrds
        refine ⟨hs.symm, 0, by omega, ?_, ?_, by omega⟩
        · show b1 = (b.round).1
          rw [hr]
        · show ((b.round).2).isPartial = true
          rw [hr]
          rfl
      | Full ts =>
        obtain ⟨hs, k', hk', hb', hp', hf'⟩ := ih b1 (rounds + 1) h
        have hb1 : (b.round).1 = b1 := by rw [hr]
        refine ⟨hs, k' + 1, by omega, ?_, ?_, ?_⟩
        · rw [roundIter_shift, hb1]
          exact hb'
        · rw [roundIter_shift, hb1]
          exact hp'
        · intro j hj
          cases j with
          | zero =>
            show ((b.round).2).isPartial = false
            rw [hr]
            rfl
          | succ j' =>
            rw [roundIter_shift, hb1]
            exact hf' j' (by omega)

set_option maxHeartbeats 1000000000 in
/-- Claim C5: whenever the part-1 solver returns, the reported sum is the
living hit-point total of the final state, the final state is the one reached
after the counted full rounds plus the battle-ending partial round, and each
counted round was full (the partial round is not counted); on the 7x7 example
grid at default attack power 3 the battle resolves in exactly 47 full rounds
with 590 hit points left, product 27730. -/
theorem c5_part1_outcome_and_example :
    (∀ fuel (b b' : Board) (rds s : Nat),
      b.solve_part1 fuel = some (b', rds, s) →
      s = livingHpSum b' ∧
      b' = ((roundIter b rds).round).1 ∧
      (((roundIter b rds).round).2).isPartial = true ∧
      ∀ j, j < rds → (((roundIter b j).round).2).isPartial = false) ∧
    (parse exGrid).isSome = true ∧
    (exBoard.solve_part1 48).map (fun r => (r.2.1, r.2.2)) = some (47, 590) ∧
    part1 exBoard 48 = some 27730 := by
  have hmap : (exBoard.solve_part1 48).map (fun r => (r.2.1, r.2.2)) =
      some (47, 590) := by decide
  refine ⟨?_, by decide, hmap, ?_⟩
  · intro fuel b b' rds s h
    obtain ⟨hs, k, hk, hb', hp, hf⟩ := solveP1Go_spec fuel b 0 h
    have hk' : k = rds := by omega
    subst hk'
    exact ⟨hs, hb', hp, hf⟩
  · obtain ⟨r, hr, hpr⟩ := Option.map_eq_some'.mp hmap
    have h1 : r.2.1 = 47 := congrArg Prod.fst hpr
    have h2 : r.2.2 = 590 := congrArg Prod.snd hpr
    simp only [part1, hr, Option.map_some', h1, h2]

/-- Witness for C5 on the single-elf board: the battle ends at once with zero
full rounds and the elf's 200 hit points. -/
theorem c5_witness :
    200 = livingHpSum soloBoard ∧
    soloBoard = ((roundIter soloBoard 0).round).1 ∧
    (((roundIter soloBoard 0).round).2).isPartial = true ∧
    ∀ j, j < 0 → (((roundIter soloBoard j).round).2).isPartial = false :=
  c5_part1_outcome_and_example.1 1 soloBoard soloBoard 0 200 (by decide)

/-! The part-2 calibration search. -/

theorem anyDeadElf_iff {b : Board} :
    b.anyDeadElf = true ↔
      ∃ u, u ∈ b.all_units ∧ u.hit_pts ≤ 0 ∧ u.kind = Kind.Elf := by
  simp only [Board.anyDeadElf, List.any_eq_true, Bool.and_eq_true,
    decide_eq_true_eq]

theorem solveP2Go_elfDied : ∀ (fuel : Nat) (b : Board) (rounds : Nat),
    ((Board.solveP2Go b rounds fuel).map (fun x => x.2) = some Outcome.ElfDied ↔
      ∃ k, k < fuel ∧ (roundIter b (k + 1)).anyDeadElf = true ∧
        ∀ j, j < k → (roundIter b (j + 1)).anyDeadElf = false ∧
          (((roundIter b j).round).2).isPartial = false) := by
  intro fuel
  induction fuel with
  | zero =>
    intro b rounds
    simp [Board.solveP2Go]
  | succ m ih =>
    intro b rounds
    cases hr : b.round with
    | mk b1 out =>
      have hb1 : (b.round).1 = b1 := by rw [hr]
      have hshift : ∀ n, roundIter b (n + 1) = roundIter b1 n := by
        intro n
        rw [roundIter_shift, hb1]
      cases out with
      | Partial ts =>
        simp only [Board.solveP2Go, hr]
        by_cases hd : b1.anyDeadElf = true
        · rw [if_pos hd]
          simp only [Option.map_some']
          constructor
          · intro _
            exact ⟨0, by omega, by rw [hshift 0]; exact hd, by omega⟩
          · intro _
            trivial
        · have hdf : b1.anyDeadElf = false := by
            cases hx : b1.anyDeadElf
            · rfl
            · exact absurd hx hd
          rw [if_neg hd]
          simp only [Option.map_some']
          constructor
          · intro hcontr
            exact Outcome.noConfusion (Option.some.inj hcontr)
          · rintro ⟨k, hk, hdead, hprev⟩
            cases k with
            | zero =>
              rw [hshift 0, show roundIter b1 0 = b1 from rfl, hdf] at hdead
              exact Bool.noConfusion hdead
            | succ k' =>
              have h0 := (hprev 0 (by omega)).2
              have hth : ((b.round).2).isPartial = false := h0
              rw [hr] at hth
              exact Bool.noConfusion hth
      | Full ts =>
        simp only [Board.solveP2Go, hr]
        by_cases hd : b1.anyDeadElf = true
        · rw [if_pos hd]
          simp only [Option.map_some']
          constructor
          · intro _
            exact ⟨0, by omega, by rw [hshift 0]; exact hd, by omega⟩
          · intro _
            trivial
        · have hdf : b1.anyDeadElf = false := by
            cases hx : b1.anyDeadElf
            · rfl
            · exact absurd hx hd
          rw [if_neg hd]
          rw [ih b1 (rounds + 1)]
          constructor
          · rintro ⟨k, hk, hdead, hprev⟩
            refine ⟨k + 1, by omega, by rw [hshift]; exact hdead, ?_⟩
            intro j hj
            cases j with
            | zero =>
              refine ⟨by rw [hshift 0]; exact hdf, ?_⟩
              show ((b.round).2).isPartial = false
              rw [hr]
              rfl
            | succ j' =>
              obtain ⟨ha, hb2⟩ := hprev j' (by omega)
              exact ⟨by rw [hshift]; exact ha, by rw [hshift]; exact hb2⟩
          · rintro ⟨k, hk, hdead, hprev⟩
            cases k with
            | zero =>
              rw [hshift 0, show roundIter b1 0 = b1 from rfl, hdf] at hdead
              exact Bool.noConfusion hdead
            | succ k' =>
              refine ⟨k', by omega, by rw [← hshift]; exact hdead, ?_⟩
              intro j hj
              obtain ⟨ha, hb2⟩ := hprev (j + 1) (by omega)
              exact ⟨by rw [← hshift]; exact ha, by rw [← hshift]; exact hb2⟩

theorem part2Go_spec : ∀ (fuel : Nat) (base : Board) (battleFuel : Nat)
    (maxFailed pwr : Nat) (minSuccess : Option Nat) (p r s : Nat),
    part2Go base battleFuel fuel maxFailed pwr minSuccess = some (p, r, s) →
    ((withElfPwr base p).solve_part2 battleFuel).map (fun x => x.2) =
      some (Outcome.Solved r s) ∧
    ∃ m, p = m + 1 ∧ (m = maxFailed ∨
      ((withElfPwr base m).solve_part2 battleFuel).map (fun x => x.2) =
        some Outcome.ElfDied) := by
  intro fuel
  induction fuel with
  | zero =>
    intro base battleFuel maxFailed pwr minSuccess p r s h
    exact absurd h (by simp [part2Go])
  | succ m ih =>
    intro base battleFuel maxFailed pwr minSuccess p r s h
    cases hsv : (withElfPwr base pwr).solve_part2 battleFuel with
    | none =>
      simp only [part2Go, hsv] at h
      exact Option.noConfusion h
    | some res =>
      cases res with
      | mk bF oc =>
        cases oc with
        | ElfDied =>
          cases minSuccess with
          | none =>
            simp only [part2Go, hsv] at h
            obtain ⟨h1, mm, hm, hc⟩ := ih base battleFuel pwr (pwr * 2) none p r s h
            refine ⟨h1, mm, hm, Or.inr ?_⟩
            rcases hc with hceq | hcd
            · rw [hceq, hsv]
              rfl
            · exact hcd
          | some ps =>
            simp only [part2Go, hsv] at h
            obtain ⟨h1, mm, hm, hc⟩ :=
              ih base battleFuel pwr (ps - (ps - pwr) / 2) (some ps) p r s h
            refine ⟨h1, mm, hm, Or.inr ?_⟩
            rcases hc with hceq | hcd
            · rw [hceq, hsv]
              rfl
            · exact hcd
        | Solved r0 s0 =>
          by_cases hp : pwr = maxFailed + 1
          · simp only [part2Go, hsv, if_pos hp] at h
            have h' := Option.some.inj h
            have hpp : pwr = p := congrArg (fun x => x.1) h'
            have hrr : r0 = r := congrArg (fun x => x.2.1) h'
            have hss : s0 = s := congrArg (fun x => x.2.2) h'
            refine ⟨?_, maxFailed, by omega, Or.inl rfl⟩
            rw [← hpp, hsv]
            simp only [Option.map_some']
            rw [hrr, hss]
          · simp only [part2Go, hsv, if_neg hp] at h
            exact ih base battleFuel maxFailed (pwr - (pwr - maxFailed) / 2)
              (some pwr) p r s h

/-- Claim C6: a candidate elf power is classified as failing exactly when some
stored elf's hit points are at or below zero at one of the after-round
checkpoints (all earlier checkpoints being elf-free and all earlier rounds
full); and the search loop returns only from a successful battle whose power
is exactly one more than the loop's current `max_failed_pwr` — which is either
the initial, untested 3 or a power that was observed to fail. -/
theorem c6_part2_search :
    (∀ b : Board, b.anyDeadElf = true ↔
      ∃ u, u ∈ b.all_units ∧ u.hit_pts ≤ 0 ∧ u.kind = Kind.Elf) ∧
    (∀ fuel (b : Board) rounds,
      ((Board.solveP2Go b rounds fuel).map (fun x => x.2) = some Outcome.ElfDied ↔
        ∃ k, k < fuel ∧ (roundIter b (k + 1)).anyDeadElf = true ∧
          ∀ j, j < k → (roundIter b (j + 1)).anyDeadElf = false ∧
            (((roundIter b j).round).2).isPartial = false)) ∧
    (∀ fuel base battleFuel maxFailed pwr minSuccess p r s,
      part2Go base battleFuel fuel maxFailed pwr minSuccess = some (p, r, s) →
      ((withElfPwr base p).solve_part2 battleFuel).map (fun x => x.2) =
        some (Outcome.Solved r s) ∧
      ∃ m, p = m + 1 ∧ (m = maxFailed ∨
        ((withElfPwr base m).solve_part2 battleFuel).map (fun x => x.2) =
          some Outcome.ElfDied)) :=
  ⟨fun _ => anyDeadElf_iff, solveP2Go_elfDied, part2Go_spec⟩

/-- Witness for C6 on the corridor duel: the search at battle fuel 60 returns
power 4 with 50 rounds and 50 hit points, and 4 is one more than the assumed
failing power 3. -/
theorem c6_witness :
    ((withElfPwr tinyBoard 4).solve_part2 60).map (fun x => x.2) =
      some (Outcome.Solved 50 50) ∧
    ∃ m, 4 = m + 1 ∧ (m = 3 ∨
      ((withElfPwr tinyBoard m).solve_part2 60).map (fun x => x.2) =
        some Outcome.ElfDied) :=
  c6_part2_search.2.2 3 tinyBoard 60 3 4 none 4 50 50 (by decide)

/-! The distinct-living-positions invariant. -/

theorem okPos_pair {l : List Unit} (h : okPos l) {a c : Nat} (ha : a < l.length)
    (hc : c < l.length) (hne : a ≠ c) :
    0 < l[a].hit_pts → 0 < l[c].hit_pts → l[a].pos ≠ l[c].pos := by
  unfold okPos at h
  rw [List.pairwise_iff_getElem] at h
  rcases Nat.lt_or_ge a c with hlt | hge
  · exact h a c ha hc hlt
  · have hlt : c < a := by omega
    intro h1 h2
    exact fun he => (h c a hc ha hlt h2 h1) he.symm

theorem okPos_set {l : List Unit} {j : Nat} {u' : Unit} (hok : okPos l)
    (hcond : ∀ k (hk : k < l.length), k ≠ j →
      0 < u'.hit_pts → 0 < l[k].hit_pts → u'.pos ≠ l[k].pos) :
    okPos (l.set j u') := by
  unfold okPos at hok ⊢
  rw [List.pairwise_iff_getElem] at hok ⊢
  intro a c ha hc hac
  have ha' : a < l.length := by
    rw [List.length_set] at ha
    exact ha
  have hc' : c < l.length := by
    rw [List.length_set] at hc
    exact hc
  rw [List.getElem_set, List.getElem_set]
  by_cases haj : j = a
  · rw [if_pos haj]
    rw [if_neg (by omega)]
    intro h1 h2
    exact hcond c hc' (by omega) h1 h2
  · rw [if_neg haj]
    by_cases hcj : j = c
    · rw [if_pos hcj]
      intro h1 h2
      exact fun he => (hcond a ha' (by omega) h2 h1) he.symm
    · rw [if_neg hcj]
      exact hok a c ha' hc' hac

theorem okPos_attack {b : Board} {i : Nat} {T : List Nat}
    (hT : ∀ j, j ∈ T → j < b.all_units.length)
    (h : okPos b.all_units) : okPos ((b.attack i T).1).all_units := by
  rcases @attack_result b i T with hres | ⟨j, hj, hres⟩
  · rw [hres]
    exact h
  · rw [hres]
    apply okPos_set h
    intro k hk hkj h1 h2
    have hjlen : j < b.all_units.length := hT j (adjTargets_subset hj)
    have h1' : 0 < (b.unit j).hit_pts -
        ((lookupPwr b.attack_pwr (b.unit i).kind).getD 3 : Int) := h1
    have hnn : (0 : Int) ≤ ((lookupPwr b.attack_pwr (b.unit i).kind).getD 3 : Int) :=
      Int.natCast_nonneg _
    have hlive : 0 < (b.unit j).hit_pts := by omega
    show (b.unit j).pos ≠ b.all_units[k].pos
    rw [← unit_getElem hjlen]
    exact okPos_pair h hjlen hk (fun he => hkj he.symm)
      (by rw [unit_getElem hjlen]; exact hlive) h2

theorem okPos_move {b : Board} {i : Nat} {T : List Nat} (h : okPos b.all_units) :
    okPos ((b.move_unit i T).1).all_units := by
  rcases @move_result b i T with hres | ⟨dst, hdst, hres⟩
  · rw [hres]
    exact h
  · rw [hres]
    apply okPos_set h
    intro k hk hkj h1 h2
    show dst ≠ b.all_units[k].pos
    intro he
    apply hdst
    rw [he]
    exact mem_current_unit_positions.mpr ⟨b.all_units[k], List.getElem_mem hk, h2, rfl⟩

theorem okPos_turn {b : Board} {i : Nat} (h : okPos b.all_units) :
    okPos ((b.turn i).1).all_units := by
  have hT : ∀ j, j ∈ b.potentialTargets i → j < b.all_units.length :=
    fun j hj => potentialTargets_bound hj
  simp only [Board.turn]
  split
  · exact h
  · split
    · exact h
    · split
      · rename_i b1 heq
        have h1 : okPos b1.all_units := by
          have := @okPos_attack b i (b.potentialTargets i) hT h
          rw [heq] at this
          exact this
        have hT1 : ∀ j, j ∈ b.potentialTargets i → j < b1.all_units.length := by
          intro j hj
          have hl : b1.all_units.length = b.all_units.length := by
            have := @length_attack b i (b.potentialTargets i)
            rw [heq] at this
            exact this
          rw [hl]
          exact hT j hj
        split
        · rename_i b2 heq2
          have h2 : okPos b2.all_units := by
            have := @okPos_move b1 i (b.potentialTargets i) h1
            rw [heq2] at this
            exact this
          exact h2
        · rename_i b2 frm dst heq2
          have h2 : okPos b2.all_units := by
            have := @okPos_move b1 i (b.potentialTargets i) h1
            rw [heq2] at this
            exact this
          have hT2 : ∀ j, j ∈ b.potentialTargets i → j < b2.all_units.length := by
            intro j hj
            have hl : b2.all_units.length = b1.all_units.length := by
              have := @length_move b1 i (b.potentialTargets i)
              rw [heq2] at this
              exact this
            rw [hl]
            exact hT1 j hj
          exact okPos_attack hT2 h2
      · rename_i b1 atk hne heq
        have h1 : okPos b1.all_units := by
          have := @okPos_attack b i (b.potentialTargets i) hT h
          rw [heq] at this
          exact this
        exact h1

theorem okPos_sortUnits {l : List Unit} (h : okPos l) : okPos (sortUnits l) := by
  unfold okPos at h ⊢
  have hperm := List.perm_insertionSort
    (fun u v : Unit => Pt.cmp u.pos v.pos ≠ Ordering.gt) l
  have hsymm : ∀ {x y : Unit},
      (0 < x.hit_pts → 0 < y.hit_pts → x.pos ≠ y.pos) →
      (0 < y.hit_pts → 0 < x.hit_pts → y.pos ≠ x.pos) :=
    fun hxy h1 h2 => fun he => (hxy h2 h1) he.symm
  exact (hperm.pairwise_iff hsymm).mpr h

theorem okPos_roundGo : ∀ {n : Nat} {b : Board} {i : Nat} {acc : List TurnOutcome},
    okPos b.all_units → okPos ((Board.roundGo b i n acc).1).all_units := by
  intro n
  induction n with
  | zero =>
    intro b i acc h
    exact h
  | succ m ih =>
    intro b i acc h
    unfold Board.roundGo
    split
    · rename_i b1 heq
      have h1 : okPos b1.all_units := by
        have := @okPos_turn b i h
        rw [heq] at this
        exact this
      exact h1
    · rename_i b1 out hne heq
      have h1 : okPos b1.all_units := by
        have := @okPos_turn b i h
        rw [heq] at this
        exact this
      exact ih h1

theorem okPos_round {b : Board} (h : okPos b.all_units) :
    okPos ((b.round).1).all_units := by
  unfold Board.round
  exact okPos_roundGo (okPos_sortUnits h)

theorem okPos_roundIter {b : Board} (h : okPos b.all_units) :
    ∀ n, okPos ((roundIter b n)).all_units := by
  intro n
  induction n with
  | zero => exact h
  | succ m ih => exact okPos_round ih

theorem parseRow_units_shape {top : Nat} : ∀ {cs : List Char} {left : Nat}
    {ls : List (Pt × Loc)} {us : List Unit},
    parseRow top left cs = some (ls, us) →
    (∀ u ∈ us, u.pos.top = top ∧ left ≤ u.pos.left) ∧
    us.Pairwise (fun u v => Pt.rdLt u.pos v.pos) := by
  intro cs
  induction cs with
  | nil =>
    intro left ls us h
    simp only [parseRow, Option.some.injEq, Prod.mk.injEq] at h
    obtain ⟨_, hus⟩ := h
    subst hus
    exact ⟨by simp, List.Pairwise.nil⟩
  | cons c cs ihc =>
    intro left ls us h
    simp only [parseRow] at h
    cases hc : parseCell c with
    | none =>
      rw [hc] at h
      exact absurd h (by simp)
    | some kl =>
      cases kl with
      | mk k loc =>
        rw [hc] at h
        cases hrest : parseRow top (left + 1) cs with
        | none =>
          rw [hrest] at h
          exact absurd h (by simp)
        | some pr =>
          cases pr with
          | mk ls2 us2 =>
            rw [hrest] at h
            simp only [Option.some.injEq, Prod.mk.injEq] at h
            obtain ⟨_, hus⟩ := h
            obtain ⟨hall, hpw⟩ := ihc hrest
            cases k with
            | none =>
              simp only [List.nil_append] at hus
              subst hus
              refine ⟨?_, hpw⟩
              intro u hu
              obtain ⟨h1, h2⟩ := hall u hu
              exact ⟨h1, by omega⟩
            | some kd =>
              simp only [List.singleton_append] at hus
              subst hus
              constructor
              · intro u hu
                rcases List.mem_cons.mp hu with rfl | hu2
                · exact ⟨rfl, Nat.le_refl left⟩
                · obtain ⟨h1, h2⟩ := hall u hu2
                  exact ⟨h1, by omega⟩
              · rw [List.pairwise_cons]
                refine ⟨?_, hpw⟩
                intro v hv
                obtain ⟨h1, h2⟩ := hall v hv
                show Pt.rdLt ⟨top, left⟩ v.pos
                right
                have hlt : left < v.pos.left := by omega
                exact ⟨h1.symm, hlt⟩

theorem parseRows_units_shape : ∀ {rows : List (List Char)} {top : Nat}
    {ls : List (Pt × Loc)} {us : List Unit},
    parseRows top rows = some (ls, us) →
    (∀ u ∈ us, top ≤ u.pos.top) ∧
    us.Pairwise (fun u v => Pt.rdLt u.pos v.pos) := by
  intro rows
  induction rows with
  | nil =>
    intro top ls us h
    simp only [parseRows, Option.some.injEq, Prod.mk.injEq] at h
    obtain ⟨_, hus⟩ := h
    subst hus
    exact ⟨by simp, List.Pairwise.nil⟩
  | cons row rows ihr =>
    intro top ls us h
    simp only [parseRows] at h
    cases h1 : parseRow top 0 row with
    | none =>
      rw [h1] at h
      exact absurd h (by simp)
    | some pr1 =>
      cases pr1 with
      | mk ls1 us1 =>
        cases h2 : parseRows (top + 1) rows with
        | none =>
          rw [h1, h2] at h
          exact absurd h (by simp)
        | some pr2 =>
          cases pr2 with
          | mk ls2 us2 =>
            rw [h1, h2] at h
            simp only [Option.some.injEq, Prod.mk.injEq] at h
            obtain ⟨_, hus⟩ := h
            subst hus
            obtain ⟨hrow_all, hrow_pw⟩ := parseRow_units_shape h1
            obtain ⟨hrest_all, hrest_pw⟩ := ihr h2
            constructor
            · intro u hu
              rcases List.mem_append.mp hu with hu1 | hu2
              · have := (hrow_all u hu1).1
                omega
              · have := hrest_all u hu2
                omega
            · rw [List.pairwise_append]
              refine ⟨hrow_pw, hrest_pw, ?_⟩
              intro a ha bb hb
              have h1a := (hrow_all a ha).1
              have h2b := hrest_all bb hb
              left
              omega

theorem parse_okPos {g : List (List Char)} {b : Board} (h : parse g = some b) :
    okPos b.all_units := by
  simp only [parse, Option.map_eq_some'] at h
  obtain ⟨r, hr, hb⟩ := h
  cases r with
  | mk ls us =>
    obtain ⟨_, hpw⟩ := parseRows_units_shape hr
    have hunits : b.all_units = us := by rw [← hb]
    rw [hunits]
    unfold okPos
    refine hpw.imp ?_
    intro a c hac
    intro _ _ he
    simp only [Pt.rdLt] at hac
    rw [he] at hac
    omega

theorem move_unit_dst_free {b : Board} {i : Nat} {T : List Nat} {b' : Board}
    {frm dst : Pt} (h : b.move_unit i T = (b', MoveOutcome.Moved frm dst)) :
    dst ∉ b.current_unit_positions := by
  cases hsel : selectBy Path.cmp (b.moveCandidates i T) with
  | none =>
    have hmv : b.move_unit i T = (b, MoveOutcome.Unreachable) := by
      simp only [Board.move_unit, hsel]
    rw [hmv] at h
    exact MoveOutcome.noConfusion (congrArg Prod.snd h)
  | some p =>
    have hmv : b.move_unit i T =
        ({ b with all_units := b.all_units.set i { b.unit i with pos := p.origin } },
          MoveOutcome.Moved (b.unit i).pos p.origin) := by
      simp only [Board.move_unit, hsel]
    rw [hmv] at h
    have h2 := congrArg Prod.snd h
    injection h2 with hf hd
    obtain ⟨hmem, _⟩ := selectPath_spec hsel
    obtain ⟨ho, _⟩ := moveCandidates_shape hmem
    rw [← hd]
    exact in_range_not_occupied ho

/-- Claim C9: among the stored units, no two living ones ever share a
position: the invariant holds after parsing any grid, it is preserved by every
single turn — a moving unit only ever steps onto a cell not occupied by any
living unit — and hence it holds in every state reachable by executing any
number of rounds from a parsed board. -/
theorem c9_living_positions_distinct :
    (∀ g b, parse g = some b → okPos b.all_units) ∧
    (∀ (b : Board) (i : Nat), okPos b.all_units → okPos ((b.turn i).1).all_units) ∧
    (∀ (b : Board) (i : Nat) (T : List Nat) b' frm dst,
      b.move_unit i T = (b', MoveOutcome.Moved frm dst) →
      dst ∉ b.current_unit_positions) ∧
    (∀ g b n, parse g = some b → okPos ((roundIter b n)).all_units) :=
  ⟨fun _ _ h => parse_okPos h,
   fun _ _ h => okPos_turn h,
   fun _ _ _ _ _ _ h => move_unit_dst_free h,
   fun _ _ n h => okPos_roundIter (parse_okPos h) n⟩

/-- Witness for C9 on the one-gap duel board: the invariant after parsing,
after one round, and the concrete move's destination being unoccupied. -/
theorem c9_witness :
    okPos duelBoard.all_units ∧
    okPos ((roundIter duelBoard 1)).all_units ∧
    (⟨1, 2⟩ : Pt) ∉ duelBoard.current_unit_positions :=
  ⟨c9_living_positions_distinct.1 duelGrid duelBoard (by decide),
   c9_living_positions_distinct.2.2.2 duelGrid duelBoard 1 (by decide),
   c9_living_positions_distinct.2.2.1 duelBoard 0 [1]
     (duelBoard.move_unit 0 [1]).1 ⟨1, 1⟩ ⟨1, 2⟩ (by decide)⟩

end Advent15
